import Mathlib

/-!
Formal model of the core of `AshInv/Plot.py` (Python Volcanic Ash Inversion):
the sparse-to-dense field reconstruction (`expandVariable`), the pruning block
of `readJson`, and the adaptive downsampler (`downsample` with its helpers
`prime_factors`, `find_downsample_factor` and `rebin`).

Modelling conventions:
* numpy float64 values are modelled as `ℚ`; the properties verified here are
  structural (shapes, index ranges, branch selection, orderings) and do not
  depend on floating-point rounding.
* a numpy masked array is a matrix of `Option ℚ` cells (`none` = masked);
  a numpy 2-d array is a shape together with a total indexing function
  (reads outside the shape are unconstrained junk, as the theorems only ever
  inspect in-shape cells).
* Python exceptions are modelled with `Except String`; the strings are the
  messages Python would produce.
* Python `None` returned by falling off the end of `rebin`'s `if`/`elif`
  chain, and the aliasing behaviour of `return arr`, are modelled by the
  dedicated result type `RebinResult`.
-/

/-- A 2-d integer array (the `ordering_index` table of `Plot.py`). -/
structure IndexMat where
  rows : Nat
  cols : Nat
  data : Nat → Nat → Int

/-- A 2-d masked float array: `none` models a masked (missing) cell. -/
structure MaskedMat where
  rows : Nat
  cols : Nat
  data : Nat → Nat → Option ℚ

/-- A plain 2-d float array (input of `downsample` in `Plot.py`). -/
structure Mat where
  rows : Nat
  cols : Nat
  data : Nat → Nat → ℚ

/-- `expandVariable` of `Plot.py` (lines 108-116): start from
`np.ma.masked_all(ordering_index.shape)` and, for `t < len(emission_times)`
and `a < len(level_heights)`, set cell `(a, t)` to `variable[emis_index]`
when `emis_index = ordering_index[a, t]` is non-negative.  The source's
`variable` parameter is renamed `values` (`variable` is reserved in Lean).  Each cell is
written at most once, so the loop is modelled pointwise.  The list lookup is
modelled with `List.getD _ 0`; Python instead raises `IndexError` on an
out-of-range index, so every theorem below carries the in-range hypothesis
that keeps the default unreachable.  Likewise, when a label array is longer
than the corresponding `ordering_index` dimension the Python loop raises
`IndexError`; the theorems restrict to the crash-free regimes. -/
def expandVariable (emission_times level_heights : List ℚ) (ordering_index : IndexMat)
    (values : List ℚ) : MaskedMat :=
  { rows := ordering_index.rows
    cols := ordering_index.cols
    data := fun a t =>
      if a < level_heights.length ∧ t < emission_times.length ∧ 0 ≤ ordering_index.data a t
      then some (values.getD (ordering_index.data a t).toNat 0)
      else none }

/-- Maximum of two masked values, with `np.ma` semantics: masked operands are
ignored, and the result is masked only when both operands are. -/
def optMax : Option ℚ → Option ℚ → Option ℚ
  | some x, some y => some (max x y)
  | some x, none => some x
  | none, b => b

/-- `M.max(axis=1)` at row `r`: maximum of the unmasked cells of row `r`,
masked when the whole row is masked. -/
def rowMax (M : MaskedMat) (r : Nat) : Option ℚ :=
  (List.range M.cols).foldr (fun c acc => optMax (M.data r c) acc) none

/-- `M.max(axis=0)` at column `c`: maximum of the unmasked cells of column
`c`, masked when the whole column is masked. -/
def colMax (M : MaskedMat) (c : Nat) : Option ℚ :=
  (List.range M.rows).foldr (fun r acc => optMax (M.data r c) acc) none

/-- Row criterion of the pruning block (`Plot.py` line 91): the row enters
`np.flatnonzero((a_priori.max(axis=1) + a_posteriori.max(axis=1)) > prune_zero)`
exactly when both row maxima are unmasked and their sum exceeds the
threshold (a masked sum compares as masked and is dropped by
`flatnonzero`). -/
def passesRow (A B : MaskedMat) (prune_zero : ℚ) (r : Nat) : Bool :=
  match rowMax A r, rowMax B r with
  | some x, some y => decide (prune_zero < x + y)
  | _, _ => false

/-- Column criterion of the pruning block (`Plot.py` line 92). -/
def passesCol (A B : MaskedMat) (prune_zero : ℚ) (c : Nat) : Bool :=
  match colMax A c, colMax B c with
  | some x, some y => decide (prune_zero < x + y)
  | _, _ => false

/-- Python's builtin `max` over a list of indices: raises on the empty list
(the message is CPython's), otherwise folds the binary maximum. -/
def pyMax : List Nat → Except String Nat
  | [] => Except.error "max() arg is an empty sequence"
  | x :: xs => Except.ok (xs.foldl max x)

/-- Python's builtin `min` over a list of indices. -/
def pyMin : List Nat → Except String Nat
  | [] => Except.error "min() arg is an empty sequence"
  | x :: xs => Except.ok (xs.foldl min x)

/-- The slice `M[:rhi, clo:chi]` on a masked matrix, with Python slice
clamping semantics for the resulting shape. -/
def cropMasked (M : MaskedMat) (rhi clo chi : Nat) : MaskedMat :=
  { rows := min rhi M.rows
    cols := min chi M.cols - clo
    data := fun r c => M.data r (clo + c) }

/-- Everything the pruning block of `readJson` computes: the bounds it
derives and the cropped fields and axis-label arrays. -/
structure PruneResult where
  validElevations : Nat
  validTimesMin : Nat
  validTimesMax : Nat
  aPriori : MaskedMat
  aPosteriori : MaskedMat
  levelHeights : List ℚ
  emissionTimes : List ℚ

/-- The pruning block of `readJson` (`Plot.py` lines 90-102), as the `prune`
contract of the spec.  `A`/`B` are the expanded a-priori/a-posteriori fields;
`valid_times_min`/`valid_times_max` are the caller-supplied optional explicit
time bounds (`None` = compute from the data).  Evaluation order follows the
source: the elevation bound (builtin `max` over the flat-nonzero row indices,
which raises on an empty sequence) is computed first, then the default time
bounds (builtin `min`/`max` over the flat-nonzero column indices).  The
cropped `ordering_index` (line 100) carries no information beyond the bounds
and is not recorded.  Timestamps are modelled as `ℚ` stand-ins: only their
positions are relevant. -/
def prune (A B : MaskedMat) (prune_zero : ℚ) (valid_times_min valid_times_max : Option Nat)
    (level_heights emission_times : List ℚ) : Except String PruneResult :=
  match pyMax ((List.range A.rows).filter (passesRow A B prune_zero)) with
  | Except.error e => Except.error e
  | Except.ok lastRow =>
    let valid_times := (List.range A.cols).filter (passesCol A B prune_zero)
    match (match valid_times_min with
           | some v => Except.ok v
           | none => pyMin valid_times) with
    | Except.error e => Except.error e
    | Except.ok tmin =>
      match (match valid_times_max with
             | some v => Except.ok v
             | none =>
               match pyMax valid_times with
               | Except.error e => Except.error e
               | Except.ok m => Except.ok (m + 1)) with
      | Except.error e => Except.error e
      | Except.ok tmax =>
        Except.ok
          { validElevations := lastRow + 1
            validTimesMin := tmin
            validTimesMax := tmax
            aPriori := cropMasked A (lastRow + 1) tmin tmax
            aPosteriori := cropMasked B (lastRow + 1) tmin tmax
            levelHeights := level_heights.take (lastRow + 1)
            emissionTimes := (emission_times.take tmax).drop tmin }

/-- Modelled from the spec: the explicit "no valid data" error message that
spec sections 7 and 9 prescribe for pruning when nothing clears the
threshold ("no data above prune threshold").  The source raises no such
error; this name exists only to compare the prescription with what the
source actually raises. -/
def noValidDataMsg : String := "no data above prune threshold"

/-- The trial-division loop of `prime_factors` in `Plot.py` (lines 296-308),
state `(i, n)`: while `i * i <= n`, either `i` does not divide `n` and `i`
is incremented, or `n` is replaced by `n // i` and `i` is appended; finally
the remaining `n` is appended when `n > 1`.  The guard carries the loop
invariant `2 ≤ i` (the source starts at `i = 2` and only increments), which
also provides termination. -/
def pfGo (i n : Nat) : List Nat :=
  if h : 2 ≤ i ∧ i * i ≤ n then
    if n % i = 0 then i :: pfGo i (n / i)
    else pfGo (i + 1) n
  else if 1 < n then [n] else []
termination_by 3 * n - i
decreasing_by
  · have h1 : 0 < n := by nlinarith [h.1, h.2]
    have h2 : n / i < n := Nat.div_lt_self h1 (by omega)
    have h3 : i ≤ n := le_trans (Nat.le_mul_of_pos_left i (by omega)) h.2
    omega
  · have h3 : i ≤ n := le_trans (Nat.le_mul_of_pos_left i (by omega)) h.2
    have : 4 ≤ n := by nlinarith [h.1, h.2]
    omega

/-- `prime_factors(n)` of `Plot.py`: the trial-division loop started at
`i = 2`. -/
def prime_factors (n : Nat) : List Nat := pfGo 2 n

/-- The accumulation loop of `find_downsample_factor` (`Plot.py` lines
313-318): walk the prime factors in order, multiplying the next factor `f`
into the running `factor` as long as `shape / (factor * f) > output`,
stopping at the first violation.  The source compares with Python's exact
(true) division; since the divisor is always positive here, `shape / p >
output` is written in the equivalent multiplicative form
`output * p < shape`. -/
def fdfGo (shape output : Nat) : List Nat → Nat → Nat
  | [], factor => factor
  | f :: fs, factor =>
    if output * (factor * f) < shape then fdfGo shape output fs (factor * f)
    else factor

/-- `find_downsample_factor(shape, output)` of `Plot.py` (lines 310-319). -/
def find_downsample_factor (shape output : Nat) : Nat :=
  fdfGo shape output (prime_factors shape) 1

/-- Ascending sort, standing in for the sort inside `np.median`. -/
def sortQ (l : List ℚ) : List ℚ := l.insertionSort (· ≤ ·)

/-- `np.median` of a 1-d block: middle element of the sorted block when the
length is odd, average of the two middle elements when it is even. -/
def npMedian (l : List ℚ) : ℚ :=
  if l.length % 2 = 1 then (sortQ l).getD (l.length / 2) 0
  else ((sortQ l).getD (l.length / 2 - 1) 0 + (sortQ l).getD (l.length / 2) 0) / 2

/-- `np.mean` of a 1-d block. -/
def npMean (l : List ℚ) : ℚ := l.sum / (l.length : ℚ)

/-- `np.max` of a 1-d block (blocks are never empty in `rebin`). -/
def npMax : List ℚ → ℚ
  | [] => 0
  | x :: xs => xs.foldl max x

/-- `np.min` of a 1-d block. -/
def npMin : List ℚ → ℚ
  | [] => 0
  | x :: xs => xs.foldl min x

/-- The two-stage block aggregation of `rebin`: reshape `arr` (C order) to
`(n0, f0, n1, f1)` — so that reshaped cell `(a, b, c, d)` is
`arr[a*f0 + b, c*f1 + d]` — aggregate over the last axis (`d`), then over
axis 1 (`b`).  For `median` this is a median of medians, exactly as the
source computes it. -/
def blockAgg (agg : List ℚ → ℚ) (arr : Mat) (n0 f0 n1 f1 : Nat) : Mat :=
  { rows := n0
    cols := n1
    data := fun a c =>
      agg ((List.range f0).map (fun b =>
        agg ((List.range f1).map (fun d => arr.data (a * f0 + b) (c * f1 + d))))) }

/-- What `rebin` hands back, keeping track of Python object identity:
`fresh m` is a newly allocated array `m` (the aggregation branches),
`same` is the input array object itself (the `else: return arr` branch),
and `noneVal` is Python `None` (control falling off the `if`/`elif` chain
when the `rebin_type` is not recognized). -/
inductive RebinResult where
  | fresh (m : Mat)
  | same
  | noneVal

/-- `rebin(arr, new_shape, rebin_type)` of `Plot.py` (lines 321-335).  When
some axis shrinks, the source first builds the reshape tuple, whose block
sizes `arr.shape[i] // new_shape[i]` raise `ZeroDivisionError` when a target
dimension is `0` (only possible for a zero-sized input axis); then it
dispatches on `rebin_type`, returning `None` for an unrecognized name.
Otherwise it returns the input array itself. -/
def rebin (arr : Mat) (new_shape : Nat × Nat) (rebin_type : String) :
    Except String RebinResult :=
  if new_shape.1 < arr.rows ∨ new_shape.2 < arr.cols then
    if new_shape.1 = 0 ∨ new_shape.2 = 0 then
      Except.error "integer division or modulo by zero"
    else
      let f0 := arr.rows / new_shape.1
      let f1 := arr.cols / new_shape.2
      if rebin_type = "mean" then
        Except.ok (RebinResult.fresh (blockAgg npMean arr new_shape.1 f0 new_shape.2 f1))
      else if rebin_type = "median" then
        Except.ok (RebinResult.fresh (blockAgg npMedian arr new_shape.1 f0 new_shape.2 f1))
      else if rebin_type = "max" then
        Except.ok (RebinResult.fresh (blockAgg npMax arr new_shape.1 f0 new_shape.2 f1))
      else if rebin_type = "min" then
        Except.ok (RebinResult.fresh (blockAgg npMin arr new_shape.1 f0 new_shape.2 f1))
      else Except.ok RebinResult.noneVal
  else Except.ok RebinResult.same

/-- `downsample(arr, target, rebin_type)` of `Plot.py` (lines 293-338):
compute `target_size = [s // find_downsample_factor(s, t) ...]` per axis and
hand the result to `rebin`. -/
def downsample (arr : Mat) (target : Nat × Nat) (rebin_type : String) :
    Except String RebinResult :=
  rebin arr
    (arr.rows / find_downsample_factor arr.rows target.1,
     arr.cols / find_downsample_factor arr.cols target.2) rebin_type

/-- The array a `RebinResult` denotes: a fresh result is itself, `same` is
the input array, and Python `None` denotes no array at all. -/
def rebinOut : RebinResult → Mat → Option Mat
  | RebinResult.fresh m, _ => some m
  | RebinResult.same, arr => some arr
  | RebinResult.noneVal, _ => none

theorem pfGo_prod : ∀ i n, 2 ≤ i → 1 ≤ n → (pfGo i n).prod = n := by
  intro i n
  induction i, n using pfGo.induct with
  | case1 i n h hmod ih =>
    intro _ hn
    rw [pfGo, dif_pos h, if_pos hmod]
    have hdvd : i ∣ n := Nat.dvd_of_mod_eq_zero hmod
    have : 1 ≤ n / i := by
      have : i ≤ n := le_trans (Nat.le_mul_of_pos_left i (by omega)) h.2
      exact Nat.one_le_div_iff (by omega) |>.mpr this
    rw [List.prod_cons, ih (by omega) this, Nat.mul_div_cancel' hdvd]
  | case2 i n h hmod ih =>
    intro _ hn
    rw [pfGo, dif_pos h, if_neg hmod]
    exact ih (by omega) hn
  | case3 i n h h1 =>
    intro _ hn
    rw [pfGo, dif_neg h, if_pos h1]
    simp
  | case4 i n h h1 =>
    intro _ hn
    rw [pfGo, dif_neg h, if_neg h1]
    simp
    omega

theorem pfGo_two_le : ∀ i n, 2 ≤ i → ∀ p ∈ pfGo i n, 2 ≤ p := by
  intro i n
  induction i, n using pfGo.induct with
  | case1 i n h hmod ih =>
    intro h2 p hp
    rw [pfGo, dif_pos h, if_pos hmod] at hp
    rcases List.mem_cons.mp hp with rfl | hp
    · exact h2
    · exact ih (by omega) p hp
  | case2 i n h hmod ih =>
    intro h2 p hp
    rw [pfGo, dif_pos h, if_neg hmod] at hp
    exact ih (by omega) p hp
  | case3 i n h h1 =>
    intro _ p hp
    rw [pfGo, dif_neg h, if_pos h1] at hp
    simp at hp
    omega
  | case4 i n h h1 =>
    intro _ p hp
    rw [pfGo, dif_neg h, if_neg h1] at hp
    simp at hp

theorem pfGo_mem_le : ∀ i n, 2 ≤ i → (i ≤ n ∨ n ≤ 1) → ∀ p ∈ pfGo i n, i ≤ p := by
  intro i n
  induction i, n using pfGo.induct with
  | case1 i n h hmod ih =>
    intro h2 _ p hp
    rw [pfGo, dif_pos h, if_pos hmod] at hp
    rcases List.mem_cons.mp hp with rfl | hp
    · exact le_refl _
    · have hle : i ≤ n / i := (Nat.le_div_iff_mul_le (by omega)).mpr h.2
      exact ih (by omega) (Or.inl hle) p hp
  | case2 i n h hmod ih =>
    intro h2 _ p hp
    rw [pfGo, dif_pos h, if_neg hmod] at hp
    have h4 : i + 1 ≤ n := by nlinarith [h.1, h.2]
    exact le_trans (by omega) (ih (by omega) (Or.inl h4) p hp)
  | case3 i n h h1 =>
    intro _ hin p hp
    rw [pfGo, dif_neg h, if_pos h1] at hp
    simp at hp
    omega
  | case4 i n h h1 =>
    intro _ _ p hp
    rw [pfGo, dif_neg h, if_neg h1] at hp
    simp at hp

theorem pfGo_sorted : ∀ i n, 2 ≤ i → (i ≤ n ∨ n ≤ 1) → List.Sorted (· ≤ ·) (pfGo i n) := by
  intro i n
  induction i, n using pfGo.induct with
  | case1 i n h hmod ih =>
    intro h2 _
    rw [pfGo, dif_pos h, if_pos hmod]
    have hle : i ≤ n / i := (Nat.le_div_iff_mul_le (by omega)).mpr h.2
    refine List.sorted_cons.mpr ⟨fun b hb => ?_, ih (by omega) (Or.inl hle)⟩
    exact pfGo_mem_le i (n / i) (by omega) (Or.inl hle) b hb
  | case2 i n h hmod ih =>
    intro h2 _
    rw [pfGo, dif_pos h, if_neg hmod]
    have h4 : i + 1 ≤ n := by nlinarith [h.1, h.2]
    exact ih (by omega) (Or.inl h4)
  | case3 i n h h1 =>
    intro _ _
    rw [pfGo, dif_neg h, if_pos h1]
    simp
  | case4 i n h h1 =>
    intro _ _
    rw [pfGo, dif_neg h, if_neg h1]
    simp

theorem pfGo_prime : ∀ i n, 2 ≤ i → (∀ m, 2 ≤ m → m < i → ¬ m ∣ n) →
    ∀ p ∈ pfGo i n, Nat.Prime p := by
  intro i n
  induction i, n using pfGo.induct with
  | case1 i n h hmod ih =>
    intro h2 hinv p hp
    rw [pfGo, dif_pos h, if_pos hmod] at hp
    have hdvd : i ∣ n := Nat.dvd_of_mod_eq_zero hmod
    have hiprime : Nat.Prime i := by
      rw [Nat.prime_def_lt]
      refine ⟨h2, fun m hm hmd => ?_⟩
      by_contra hne
      have h2m : 2 ≤ m := by
        rcases Nat.lt_or_ge m 2 with hlt | hge
        · interval_cases m
          · simp at hmd
            omega
          · omega
        · exact hge
      exact hinv m h2m hm (dvd_trans hmd hdvd)
    rcases List.mem_cons.mp hp with rfl | hp
    · exact hiprime
    · refine ih (by omega) (fun m h2m hmi hmd => ?_) p hp
      exact hinv m h2m hmi (dvd_trans hmd (Nat.div_dvd_of_dvd hdvd))
  | case2 i n h hmod ih =>
    intro h2 hinv p hp
    rw [pfGo, dif_pos h, if_neg hmod] at hp
    refine ih (by omega) (fun m h2m hmi hmd => ?_) p hp
    rcases Nat.lt_or_ge m i with hlt | hge
    · exact hinv m h2m hlt hmd
    · have hmi' : m = i := by omega
      rw [hmi'] at hmd
      obtain ⟨c, hc⟩ := hmd
      exact hmod (by simp [hc, Nat.mul_mod_right])
  | case3 i n h h1 =>
    intro h2 hinv p hp
    rw [pfGo, dif_neg h, if_pos h1] at hp
    simp at hp
    rw [hp]
    by_contra hnp
    have hmf : Nat.Prime n.minFac := Nat.minFac_prime (by omega)
    have hdvd : n.minFac ∣ n := Nat.minFac_dvd n
    have hge : i ≤ n.minFac := by
      by_contra hlt
      exact hinv n.minFac hmf.two_le (by omega) hdvd
    have hsq : n.minFac ^ 2 ≤ n := Nat.minFac_sq_le_self (by omega) hnp
    have : i * i ≤ n := by nlinarith [hge, hsq, sq_nonneg n.minFac]
    exact h ⟨h2, this⟩
  | case4 i n h h1 =>
    intro _ _ p hp
    rw [pfGo, dif_neg h, if_neg h1] at hp
    simp at hp

theorem prime_factors_prod {n : Nat} (hn : 1 ≤ n) : (prime_factors n).prod = n :=
  pfGo_prod 2 n (by omega) hn

theorem prime_factors_two_le {n p : Nat} (hp : p ∈ prime_factors n) : 2 ≤ p :=
  pfGo_two_le 2 n (by omega) p hp

theorem prime_factors_sorted (n : Nat) : List.Sorted (· ≤ ·) (prime_factors n) := by
  rcases Nat.lt_or_ge n 2 with h | h
  · exact pfGo_sorted 2 n (by omega) (Or.inr (by omega))
  · exact pfGo_sorted 2 n (by omega) (Or.inl h)

theorem prime_factors_prime {n p : Nat} (hp : p ∈ prime_factors n) : Nat.Prime p :=
  pfGo_prime 2 n (by omega) (fun m h2m hm2 => by omega) p hp

theorem one_le_prod_of_one_le {l : List Nat} (h : ∀ x ∈ l, 1 ≤ x) : 1 ≤ l.prod := by
  induction l with
  | nil => simp
  | cons a as ih =>
    rw [List.prod_cons]
    have ha := h a (List.mem_cons_self a as)
    have := ih (fun x hx => h x (List.mem_cons_of_mem a hx))
    exact Nat.one_le_iff_ne_zero.mpr (Nat.mul_ne_zero (by omega) (by omega))

theorem prime_factors_take_dvd {n : Nat} (hn : 1 ≤ n) (k : Nat) :
    ((prime_factors n).take k).prod ∣ n := by
  have h := List.prod_take_mul_prod_drop (prime_factors n) k
  rw [prime_factors_prod hn] at h
  exact ⟨((prime_factors n).drop k).prod, h.symm⟩

theorem fdfGo_spec (shape output : Nat) :
    ∀ (l : List Nat) (acc : Nat), (∀ x ∈ l, 1 ≤ x) → 1 ≤ acc →
    ∃ k, k ≤ l.length ∧ fdfGo shape output l acc = acc * (l.take k).prod ∧
      (output * acc < shape → output * (acc * (l.take k).prod) < shape) ∧
      (∀ j, j ≤ l.length → output * (acc * (l.take j).prod) < shape →
        acc * (l.take j).prod ≤ acc * (l.take k).prod) := by
  intro l
  induction l with
  | nil =>
    intro acc _ _
    refine ⟨0, by simp, by simp [fdfGo], by simp, ?_⟩
    intro j hj _
    simp at hj
    simp [hj]
  | cons f fs ih =>
    intro acc hall hacc
    have hf : 1 ≤ f := hall f (List.mem_cons_self f fs)
    have hfs : ∀ x ∈ fs, 1 ≤ x := fun x hx => hall x (List.mem_cons_of_mem f hx)
    by_cases hcond : output * (acc * f) < shape
    · obtain ⟨k', hk'len, heq, himp, hmax⟩ :=
        ih (acc * f) hfs (Nat.one_le_iff_ne_zero.mpr (Nat.mul_ne_zero (by omega) (by omega)))
      refine ⟨k' + 1, by simpa using hk'len, ?_, ?_, ?_⟩
      · rw [fdfGo, if_pos hcond, heq]
        simp [List.take_succ_cons, mul_assoc]
      · intro _
        have := himp hcond
        simpa [List.take_succ_cons, mul_assoc] using this
      · intro j hj hjlt
        match j with
        | 0 =>
          simp only [List.take_zero, List.prod_nil, mul_one]
          calc acc = acc * 1 := by ring
          _ ≤ (acc * f) * (fs.take k').prod := by
              have h1 : 1 ≤ (fs.take k').prod :=
                one_le_prod_of_one_le (fun x hx => hfs x (List.mem_of_mem_take hx))
              have : acc * 1 ≤ (acc * f) * 1 := by nlinarith
              nlinarith
          _ = acc * (f :: fs.take k').prod := by rw [List.prod_cons]; ring
          _ = acc * ((f :: fs).take (k' + 1)).prod := by rw [List.take_succ_cons]
        | j' + 1 =>
          simp only [List.take_succ_cons, List.prod_cons] at hjlt ⊢
          have hj' : j' ≤ fs.length := by simpa using hj
          have h2 := hmax j' hj' (by
            calc output * (acc * f * (fs.take j').prod)
                = output * (acc * (f * (fs.take j').prod)) := by ring
            _ < shape := hjlt)
          calc acc * (f * (fs.take j').prod) = acc * f * (fs.take j').prod := by ring
          _ ≤ acc * f * (fs.take k').prod := h2
          _ = acc * (f * (fs.take k').prod) := by ring
    · refine ⟨0, by simp, ?_, by simp, ?_⟩
      · rw [fdfGo, if_neg hcond]
        simp
      · intro j hj hjlt
        match j with
        | 0 => simp
        | j' + 1 =>
          exfalso
          apply hcond
          simp only [List.take_succ_cons, List.prod_cons] at hjlt
          have h1 : 1 ≤ (fs.take j').prod :=
            one_le_prod_of_one_le (fun x hx => hfs x (List.mem_of_mem_take hx))
          calc output * (acc * f) ≤ output * (acc * f) * (fs.take j').prod := by nlinarith
          _ = output * (acc * (f * (fs.take j').prod)) := by ring
          _ < shape := hjlt

theorem find_downsample_factor_take_prod (s t : Nat) :
    ∃ k, k ≤ (prime_factors s).length ∧
      find_downsample_factor s t = ((prime_factors s).take k).prod := by
  obtain ⟨k, hk, heq, -, -⟩ :=
    fdfGo_spec s t (prime_factors s) 1
      (fun x hx => le_trans (by omega) (prime_factors_two_le hx)) (le_refl 1)
  exact ⟨k, hk, by simpa using heq⟩

theorem find_downsample_factor_pos (s t : Nat) : 1 ≤ find_downsample_factor s t := by
  obtain ⟨k, -, heq⟩ := find_downsample_factor_take_prod s t
  rw [heq]
  exact one_le_prod_of_one_le
    (fun x hx => le_trans (by omega) (prime_factors_two_le (List.mem_of_mem_take hx)))

theorem find_downsample_factor_dvd (s t : Nat) : find_downsample_factor s t ∣ s := by
  rcases Nat.eq_zero_or_pos s with rfl | hs
  · exact dvd_zero _
  · obtain ⟨k, -, heq⟩ := find_downsample_factor_take_prod s t
    rw [heq]
    exact prime_factors_take_dvd hs k

theorem find_downsample_factor_mul_lt (s t : Nat) (ht : t < s) :
    t * find_downsample_factor s t < s := by
  obtain ⟨k, hk, heq, himp, -⟩ :=
    fdfGo_spec s t (prime_factors s) 1
      (fun x hx => le_trans (by omega) (prime_factors_two_le hx)) (le_refl 1)
  have := himp (by simpa using ht)
  rw [find_downsample_factor, heq]
  simpa using this

theorem find_downsample_factor_largest (s t : Nat) :
    ∀ j, j ≤ (prime_factors s).length →
      t * ((prime_factors s).take j).prod < s →
      ((prime_factors s).take j).prod ≤ find_downsample_factor s t := by
  obtain ⟨k, hk, heq, -, hmax⟩ :=
    fdfGo_spec s t (prime_factors s) 1
      (fun x hx => le_trans (by omega) (prime_factors_two_le hx)) (le_refl 1)
  intro j hj hjlt
  have := hmax j hj (by simpa using hjlt)
  rw [find_downsample_factor, heq]
  simpa using this

theorem find_downsample_factor_eq_one (s t : Nat) (h : s ≤ t) :
    find_downsample_factor s t = 1 := by
  rw [find_downsample_factor]
  cases hL : prime_factors s with
  | nil => rfl
  | cons f fs =>
    have hf : 2 ≤ f := prime_factors_two_le (hL ▸ List.mem_cons_self f fs)
    rw [fdfGo, if_neg]
    intro hlt
    have : t ≤ t * (1 * f) := by nlinarith
    omega

theorem downsample_shape (arr : Mat) (target : Nat × Nat) (ty : String)
    (hr : 0 < arr.rows) (hc : 0 < arr.cols)
    (hty : ty = "mean" ∨ ty = "median" ∨ ty = "max" ∨ ty = "min") :
    ∃ r m, downsample arr target ty = Except.ok r ∧ rebinOut r arr = some m ∧
      m.rows = arr.rows / find_downsample_factor arr.rows target.1 ∧
      m.cols = arr.cols / find_downsample_factor arr.cols target.2 := by
  have hd0 : find_downsample_factor arr.rows target.1 ∣ arr.rows :=
    find_downsample_factor_dvd _ _
  have hd1 : find_downsample_factor arr.cols target.2 ∣ arr.cols :=
    find_downsample_factor_dvd _ _
  have hn0 : 0 < arr.rows / find_downsample_factor arr.rows target.1 :=
    Nat.div_pos (Nat.le_of_dvd hr hd0) (find_downsample_factor_pos _ _)
  have hn1 : 0 < arr.cols / find_downsample_factor arr.cols target.2 :=
    Nat.div_pos (Nat.le_of_dvd hc hd1) (find_downsample_factor_pos _ _)
  rw [downsample, rebin]
  by_cases hred : arr.rows / find_downsample_factor arr.rows target.1 < arr.rows ∨
      arr.cols / find_downsample_factor arr.cols target.2 < arr.cols
  · rw [if_pos hred, if_neg (by omega)]
    rcases hty with h | h | h | h <;> subst h <;> simp only [blockAgg] <;>
      exact ⟨_, ⟨_, rfl, rfl, rfl, rfl⟩⟩
  · rw [if_neg hred]
    push_neg at hred
    refine ⟨RebinResult.same, arr, rfl, rfl, ?_, ?_⟩
    · have := Nat.div_le_self arr.rows (find_downsample_factor arr.rows target.1)
      omega
    · have := Nat.div_le_self arr.cols (find_downsample_factor arr.cols target.2)
      omega

theorem foldl_max_spec : ∀ (xs : List Nat) (x : Nat),
    (xs.foldl max x = x ∨ xs.foldl max x ∈ xs) ∧
      x ≤ xs.foldl max x ∧ ∀ y ∈ xs, y ≤ xs.foldl max x := by
  intro xs
  induction xs with
  | nil => intro x; exact ⟨Or.inl rfl, le_refl x, by simp⟩
  | cons a as ih =>
    intro x
    obtain ⟨hmem, hle, hall⟩ := ih (max x a)
    refine ⟨?_, ?_, ?_⟩
    · rcases hmem with h | h
      · rcases max_choice x a with hx | hx
        · rw [List.foldl_cons, h, hx]; exact Or.inl rfl
        · rw [List.foldl_cons, h, hx]; exact Or.inr (List.mem_cons_self a as)
      · exact Or.inr (List.mem_cons_of_mem a h)
    · exact le_trans (le_max_left x a) hle
    · intro y hy
      rcases List.mem_cons.mp hy with rfl | hy
      · exact le_trans (le_max_right x y) hle
      · exact hall y hy

theorem foldl_min_spec : ∀ (xs : List Nat) (x : Nat),
    (xs.foldl min x = x ∨ xs.foldl min x ∈ xs) ∧
      xs.foldl min x ≤ x ∧ ∀ y ∈ xs, xs.foldl min x ≤ y := by
  intro xs
  induction xs with
  | nil => intro x; exact ⟨Or.inl rfl, le_refl x, by simp⟩
  | cons a as ih =>
    intro x
    obtain ⟨hmem, hle, hall⟩ := ih (min x a)
    refine ⟨?_, ?_, ?_⟩
    · rcases hmem with h | h
      · rcases min_choice x a with hx | hx
        · rw [List.foldl_cons, h, hx]; exact Or.inl rfl
        · rw [List.foldl_cons, h, hx]; exact Or.inr (List.mem_cons_self a as)
      · exact Or.inr (List.mem_cons_of_mem a h)
    · exact le_trans hle (min_le_left x a)
    · intro y hy
      rcases List.mem_cons.mp hy with rfl | hy
      · exact le_trans hle (min_le_right x y)
      · exact hall y hy

theorem pyMax_ok {l : List Nat} (h : l ≠ []) :
    ∃ m, pyMax l = Except.ok m ∧ m ∈ l ∧ ∀ y ∈ l, y ≤ m := by
  match l with
  | [] => exact absurd rfl h
  | x :: xs =>
    obtain ⟨hmem, hle, hall⟩ := foldl_max_spec xs x
    refine ⟨xs.foldl max x, rfl, ?_, ?_⟩
    · rcases hmem with he | he
      · rw [he]; exact List.mem_cons_self x xs
      · exact List.mem_cons_of_mem x he
    · intro y hy
      rcases List.mem_cons.mp hy with rfl | hy
      · exact hle
      · exact hall y hy

theorem pyMin_ok {l : List Nat} (h : l ≠ []) :
    ∃ m, pyMin l = Except.ok m ∧ m ∈ l ∧ ∀ y ∈ l, m ≤ y := by
  match l with
  | [] => exact absurd rfl h
  | x :: xs =>
    obtain ⟨hmem, hle, hall⟩ := foldl_min_spec xs x
    refine ⟨xs.foldl min x, rfl, ?_, ?_⟩
    · rcases hmem with he | he
      · rw [he]; exact List.mem_cons_self x xs
      · exact List.mem_cons_of_mem x he
    · intro y hy
      rcases List.mem_cons.mp hy with rfl | hy
      · exact hle
      · exact hall y hy

theorem prune_ok_spec (A B : MaskedMat) (z : ℚ) (vtmin vtmax : Option Nat)
    (heights times : List ℚ)
    (hrow : ∃ r, r < A.rows ∧ passesRow A B z r = true)
    (hcol : ∃ c, c < A.cols ∧ passesCol A B z c = true) :
    ∃ lastRow tmin tmax,
      prune A B z vtmin vtmax heights times = Except.ok
        { validElevations := lastRow + 1
          validTimesMin := tmin
          validTimesMax := tmax
          aPriori := cropMasked A (lastRow + 1) tmin tmax
          aPosteriori := cropMasked B (lastRow + 1) tmin tmax
          levelHeights := heights.take (lastRow + 1)
          emissionTimes := (times.take tmax).drop tmin } ∧
      (lastRow < A.rows ∧ passesRow A B z lastRow = true ∧
        ∀ r, r < A.rows → passesRow A B z r = true → r ≤ lastRow) ∧
      ((∀ v, vtmin = some v → tmin = v) ∧
        (vtmin = none → tmin < A.cols ∧ passesCol A B z tmin = true ∧
          ∀ c, c < A.cols → passesCol A B z c = true → tmin ≤ c)) ∧
      ((∀ v, vtmax = some v → tmax = v) ∧
        (vtmax = none → ∃ lastCol, tmax = lastCol + 1 ∧ lastCol < A.cols ∧
          passesCol A B z lastCol = true ∧
          ∀ c, c < A.cols → passesCol A B z c = true → c ≤ lastCol)) := by
  have hrne : (List.range A.rows).filter (passesRow A B z) ≠ [] := by
    obtain ⟨r, hr, hp⟩ := hrow
    intro hnil
    have : r ∈ (List.range A.rows).filter (passesRow A B z) :=
      List.mem_filter.mpr ⟨List.mem_range.mpr hr, hp⟩
    rw [hnil] at this
    exact List.not_mem_nil r this
  have hcne : (List.range A.cols).filter (passesCol A B z) ≠ [] := by
    obtain ⟨c, hc, hp⟩ := hcol
    intro hnil
    have : c ∈ (List.range A.cols).filter (passesCol A B z) :=
      List.mem_filter.mpr ⟨List.mem_range.mpr hc, hp⟩
    rw [hnil] at this
    exact List.not_mem_nil c this
  obtain ⟨lastRow, hmaxeq, hmem, hub⟩ := pyMax_ok hrne
  have hlr : lastRow < A.rows ∧ passesRow A B z lastRow = true := by
    have := List.mem_filter.mp hmem
    exact ⟨List.mem_range.mp this.1, this.2⟩
  have hub' : ∀ r, r < A.rows → passesRow A B z r = true → r ≤ lastRow := by
    intro r hr hp
    exact hub r (List.mem_filter.mpr ⟨List.mem_range.mpr hr, hp⟩)
  have htmin : ∃ tmin,
      (match vtmin with
       | some v => Except.ok v
       | none => pyMin ((List.range A.cols).filter (passesCol A B z))) =
        (Except.ok tmin : Except String Nat) ∧
      (∀ v, vtmin = some v → tmin = v) ∧
      (vtmin = none → tmin < A.cols ∧ passesCol A B z tmin = true ∧
        ∀ c, c < A.cols → passesCol A B z c = true → tmin ≤ c) := by
    cases vtmin with
    | some v => exact ⟨v, rfl, fun v' hv' => Option.some.inj hv', by simp⟩
    | none =>
      obtain ⟨m, hm, hmmem, hlb⟩ := pyMin_ok hcne
      have := List.mem_filter.mp hmmem
      refine ⟨m, hm, by simp, fun _ => ⟨List.mem_range.mp this.1, this.2, ?_⟩⟩
      intro c hc hp
      exact hlb c (List.mem_filter.mpr ⟨List.mem_range.mpr hc, hp⟩)
  obtain ⟨tmin, htmineq, htminsome, htminnone⟩ := htmin
  have htmax : ∃ tmax,
      (match vtmax with
       | some v => Except.ok v
       | none =>
         match pyMax ((List.range A.cols).filter (passesCol A B z)) with
         | Except.error e => Except.error e
         | Except.ok m => Except.ok (m + 1)) =
        (Except.ok tmax : Except String Nat) ∧
      (∀ v, vtmax = some v → tmax = v) ∧
      (vtmax = none → ∃ lastCol, tmax = lastCol + 1 ∧ lastCol < A.cols ∧
        passesCol A B z lastCol = true ∧
        ∀ c, c < A.cols → passesCol A B z c = true → c ≤ lastCol) := by
    cases vtmax with
    | some v => exact ⟨v, rfl, fun v' hv' => Option.some.inj hv', by simp⟩
    | none =>
      obtain ⟨m, hm, hmmem, hcub⟩ := pyMax_ok hcne
      have hmf := List.mem_filter.mp hmmem
      refine ⟨m + 1, by rw [hm], by simp, fun _ => ⟨m, rfl, List.mem_range.mp hmf.1, hmf.2, ?_⟩⟩
      intro c hc hp
      exact hcub c (List.mem_filter.mpr ⟨List.mem_range.mpr hc, hp⟩)
  obtain ⟨tmax, htmaxeq, htmaxsome, htmaxnone⟩ := htmax
  refine ⟨lastRow, tmin, tmax, ?_, ⟨hlr.1, hlr.2, hub'⟩, ⟨htminsome, htminnone⟩,
    ⟨htmaxsome, htmaxnone⟩⟩
  simp only [prune]
  rw [hmaxeq, htmineq, htmaxeq]

theorem prime_factors_four : prime_factors 4 = [2, 2] := by
  simp [prime_factors, pfGo]

theorem fdf_four_one : find_downsample_factor 4 1 = 2 := by
  simp [find_downsample_factor, prime_factors_four, fdfGo]

/-- Claim C2: for every (nonempty) input matrix and target shape, each
per-axis downsample factor is a product of a prefix of the axis length's
prime factorization — hence divides the axis length exactly — and the
downsampled output shape is exactly
`(inputRows / rowFactor, inputCols / colFactor)`.  (A recognized aggregator
is assumed; the unrecognized-aggregator case is claim C6.  Zero-sized axes
are excluded: on them the source raises `ZeroDivisionError` before
producing any output.) -/
theorem C2_downsample_factor_shape (arr : Mat) (target : Nat × Nat) (ty : String)
    (hr : 0 < arr.rows) (hc : 0 < arr.cols)
    (hty : ty = "mean" ∨ ty = "median" ∨ ty = "max" ∨ ty = "min") :
    (∃ k, k ≤ (prime_factors arr.rows).length ∧
      find_downsample_factor arr.rows target.1 = ((prime_factors arr.rows).take k).prod) ∧
    find_downsample_factor arr.rows target.1 ∣ arr.rows ∧
    (∃ k, k ≤ (prime_factors arr.cols).length ∧
      find_downsample_factor arr.cols target.2 = ((prime_factors arr.cols).take k).prod) ∧
    find_downsample_factor arr.cols target.2 ∣ arr.cols ∧
    ∃ r m, downsample arr target ty = Except.ok r ∧ rebinOut r arr = some m ∧
      m.rows = arr.rows / find_downsample_factor arr.rows target.1 ∧
      m.cols = arr.cols / find_downsample_factor arr.cols target.2 :=
  ⟨find_downsample_factor_take_prod _ _, find_downsample_factor_dvd _ _,
   find_downsample_factor_take_prod _ _, find_downsample_factor_dvd _ _,
   downsample_shape arr target ty hr hc hty⟩

/-- Claim C2 witness: a concrete 4x4 matrix downsampled towards (1, 1). -/
theorem C2_downsample_factor_shape_witness :
    ∃ r m, downsample ⟨4, 4, fun _ _ => (1 : ℚ)⟩ (1, 1) "median" = Except.ok r ∧
      rebinOut r ⟨4, 4, fun _ _ => (1 : ℚ)⟩ = some m ∧
      m.rows = 4 / find_downsample_factor 4 1 ∧
      m.cols = 4 / find_downsample_factor 4 1 :=
  (C2_downsample_factor_shape ⟨4, 4, fun _ _ => (1 : ℚ)⟩ (1, 1) "median"
    (by norm_num) (by norm_num) (Or.inr (Or.inl rfl))).2.2.2.2

/-- Claim C3: when the target is strictly below the axis length, the factor
found is the largest product of a prefix of the ascending prime
factorization whose quotient still strictly exceeds the target, and the
decimated axis length strictly exceeds the target. -/
theorem C3_factor_greedy_largest (s t : Nat) (ht : t < s) :
    (∃ k, k ≤ (prime_factors s).length ∧
      find_downsample_factor s t = ((prime_factors s).take k).prod) ∧
    (∀ j, j ≤ (prime_factors s).length →
      t < s / ((prime_factors s).take j).prod →
      ((prime_factors s).take j).prod ≤ find_downsample_factor s t) ∧
    t < s / find_downsample_factor s t := by
  have hs : 1 ≤ s := by omega
  refine ⟨find_downsample_factor_take_prod s t, ?_, ?_⟩
  · intro j hj hlt
    apply find_downsample_factor_largest s t j hj
    have hdvd := prime_factors_take_dvd hs j
    have := (Nat.lt_div_iff_mul_lt hdvd t).mp hlt
    rw [Nat.mul_comm]
    exact this
  · have hdvd := find_downsample_factor_dvd s t
    have hlt := find_downsample_factor_mul_lt s t ht
    refine (Nat.lt_div_iff_mul_lt hdvd t).mpr ?_
    rw [Nat.mul_comm]
    exact hlt

/-- Claim C3 witness: axis length 4, target 1 — the factor is 2 and the
decimated length 2 exceeds the target. -/
theorem C3_factor_greedy_largest_witness : 1 < 4 / find_downsample_factor 4 1 :=
  (C3_factor_greedy_largest 4 1 (by norm_num)).2.2

/-- Claim C9: an axis whose target dimension is at least the input dimension
is left unreduced: its factor is 1 and its length in the output equals the
input length. -/
theorem C9_noop_axes (arr : Mat) (target : Nat × Nat) (ty : String)
    (hr : 0 < arr.rows) (hc : 0 < arr.cols)
    (hty : ty = "mean" ∨ ty = "median" ∨ ty = "max" ∨ ty = "min") :
    (arr.rows ≤ target.1 → find_downsample_factor arr.rows target.1 = 1 ∧
      ∃ r m, downsample arr target ty = Except.ok r ∧ rebinOut r arr = some m ∧
        m.rows = arr.rows) ∧
    (arr.cols ≤ target.2 → find_downsample_factor arr.cols target.2 = 1 ∧
      ∃ r m, downsample arr target ty = Except.ok r ∧ rebinOut r arr = some m ∧
        m.cols = arr.cols) := by
  obtain ⟨r, m, hds, hout, hrows, hcols⟩ := downsample_shape arr target ty hr hc hty
  constructor
  · intro h1
    have hf := find_downsample_factor_eq_one _ _ h1
    exact ⟨hf, r, m, hds, hout, by rw [hrows, hf, Nat.div_one]⟩
  · intro h2
    have hf := find_downsample_factor_eq_one _ _ h2
    exact ⟨hf, r, m, hds, hout, by rw [hcols, hf, Nat.div_one]⟩

/-- Claim C9 witness: rows axis with target 4 at input length 4 keeps
factor 1 and all four rows. -/
theorem C9_noop_axes_witness :
    find_downsample_factor 4 4 = 1 ∧
    ∃ r m, downsample ⟨4, 4, fun _ _ => (2 : ℚ)⟩ (4, 1) "max" = Except.ok r ∧
      rebinOut r ⟨4, 4, fun _ _ => (2 : ℚ)⟩ = some m ∧ m.rows = 4 :=
  (C9_noop_axes ⟨4, 4, fun _ _ => (2 : ℚ)⟩ (4, 1) "max" (by norm_num) (by norm_num)
    (Or.inr (Or.inr (Or.inl rfl)))).1 (by norm_num)

/-- Claim C6 counterexample: a 4x4 matrix needing reduction, aggregator name
"linear" — `downsample` returns Python `None` (an ok, non-error value); no
invalid-argument error is raised. -/
theorem C6_counterexample :
    downsample ⟨4, 4, fun _ _ => (1 : ℚ)⟩ (1, 1) "linear" = Except.ok RebinResult.noneVal ∧
    ∀ e, downsample ⟨4, 4, fun _ _ => (1 : ℚ)⟩ (1, 1) "linear" ≠ Except.error e := by
  have h : downsample ⟨4, 4, fun _ _ => (1 : ℚ)⟩ (1, 1) "linear" =
      Except.ok RebinResult.noneVal := by
    simp [downsample, rebin, fdf_four_one]
  exact ⟨h, fun e he => by rw [h] at he; exact Except.noConfusion he⟩

/-- Claim C6 (amended): with an unrecognized aggregator name and a reduction
required on some axis, `downsample` returns Python `None` — control falls
off the `if`/`elif` chain of `rebin` — rather than raising an
invalid-argument error; it never falls back to a default aggregator. -/
theorem C6_unrecognized_returns_none (arr : Mat) (target : Nat × Nat) (ty : String)
    (hr : 0 < arr.rows) (hc : 0 < arr.cols)
    (hred : arr.rows / find_downsample_factor arr.rows target.1 < arr.rows ∨
            arr.cols / find_downsample_factor arr.cols target.2 < arr.cols)
    (h1 : ty ≠ "mean") (h2 : ty ≠ "median") (h3 : ty ≠ "max") (h4 : ty ≠ "min") :
    downsample arr target ty = Except.ok RebinResult.noneVal := by
  have hn0 : 0 < arr.rows / find_downsample_factor arr.rows target.1 :=
    Nat.div_pos (Nat.le_of_dvd hr (find_downsample_factor_dvd _ _))
      (find_downsample_factor_pos _ _)
  have hn1 : 0 < arr.cols / find_downsample_factor arr.cols target.2 :=
    Nat.div_pos (Nat.le_of_dvd hc (find_downsample_factor_dvd _ _))
      (find_downsample_factor_pos _ _)
  rw [downsample, rebin, if_pos hred, if_neg (by omega)]
  rw [if_neg h1, if_neg h2, if_neg h3, if_neg h4]

/-- Claim C6 witness for the amended statement. -/
theorem C6_unrecognized_returns_none_witness :
    downsample ⟨4, 4, fun _ _ => (1 : ℚ)⟩ (1, 1) "sum" = Except.ok RebinResult.noneVal :=
  C6_unrecognized_returns_none ⟨4, 4, fun _ _ => (1 : ℚ)⟩ (1, 1) "sum"
    (by norm_num) (by norm_num) (Or.inl (by simp [fdf_four_one]))
    (by decide) (by decide) (by decide) (by decide)

/-- Claim C8 counterexample: with no axis to reduce, `downsample` returns
the input array object itself (`else: return arr` in `rebin`), not a newly
allocated array. -/
theorem C8_counterexample :
    downsample ⟨1, 1, fun _ _ => (3 : ℚ)⟩ (1, 1) "median" = Except.ok RebinResult.same := by
  simp [downsample, rebin, find_downsample_factor, prime_factors, pfGo, fdfGo]

/-- Claim C8 (amended): `downsample` itself performs no writes to its input
(the embedding is purely functional, mirroring that the source only reads
`arr`); when some axis is reduced it returns a newly allocated array, but
when no axis is reduced it returns the input array itself, aliased — the
caller `plotAshInvMatrix` then mutates that very array in place with
`m[m<0] = 0.0`. -/
theorem C8_no_mutation_aliasing (arr : Mat) (target : Nat × Nat) (ty : String)
    (hr : 0 < arr.rows) (hc : 0 < arr.cols)
    (hty : ty = "mean" ∨ ty = "median" ∨ ty = "max" ∨ ty = "min") :
    ((arr.rows / find_downsample_factor arr.rows target.1 < arr.rows ∨
      arr.cols / find_downsample_factor arr.cols target.2 < arr.cols) →
      ∃ m, downsample arr target ty = Except.ok (RebinResult.fresh m)) ∧
    (¬ (arr.rows / find_downsample_factor arr.rows target.1 < arr.rows ∨
        arr.cols / find_downsample_factor arr.cols target.2 < arr.cols) →
      downsample arr target ty = Except.ok RebinResult.same) := by
  constructor
  · intro hred
    have hn0 : 0 < arr.rows / find_downsample_factor arr.rows target.1 :=
      Nat.div_pos (Nat.le_of_dvd hr (find_downsample_factor_dvd _ _))
        (find_downsample_factor_pos _ _)
    have hn1 : 0 < arr.cols / find_downsample_factor arr.cols target.2 :=
      Nat.div_pos (Nat.le_of_dvd hc (find_downsample_factor_dvd _ _))
        (find_downsample_factor_pos _ _)
    rw [downsample, rebin, if_pos hred, if_neg (by omega)]
    rcases hty with h | h | h | h <;> subst h <;> simp
  · intro hnred
    rw [downsample, rebin, if_neg hnred]

/-- Claim C8 witness for the amended statement (reduction branch). -/
theorem C8_no_mutation_aliasing_witness :
    ∃ m, downsample ⟨4, 4, fun _ _ => (1 : ℚ)⟩ (1, 1) "median" =
      Except.ok (RebinResult.fresh m) :=
  (C8_no_mutation_aliasing ⟨4, 4, fun _ _ => (1 : ℚ)⟩ (1, 1) "median"
    (by norm_num) (by norm_num) (Or.inr (Or.inl rfl))).1 (Or.inl (by simp [fdf_four_one]))

/-- Claim C1 counterexample: a 1x1 ordering index holding the valid index 0
into `values = [5]`, but with empty label arrays — the input constraint of
the claim holds, the index is non-negative, yet the cell stays masked
because the fill loops are bounded by the label array lengths, not by the
table shape. -/
theorem C1_counterexample :
    (0 : Int) ≤ (IndexMat.mk 1 1 (fun _ _ => 0)).data 0 0 ∧
    ((IndexMat.mk 1 1 (fun _ _ => 0)).data 0 0).toNat < [(5 : ℚ)].length ∧
    (expandVariable [] [] (IndexMat.mk 1 1 (fun _ _ => 0)) [(5 : ℚ)]).data 0 0 = none ∧
    (expandVariable [] [] (IndexMat.mk 1 1 (fun _ _ => 0)) [(5 : ℚ)]).data 0 0 ≠
      some (5 : ℚ) := by
  refine ⟨le_refl 0, by simp, by simp [expandVariable], by simp [expandVariable]⟩

/-- Claim C1 (amended): provided the label arrays' lengths equal the
corresponding dimensions of the ordering-index table (as they do for the
data `readJson` builds) and every non-negative index is within `values`,
the expanded field has the table's shape, equals `values[orderingIndex[a,t]]`
wherever `orderingIndex[a,t] >= 0`, and is masked elsewhere. -/
theorem C1_expand_correct (emission_times level_heights : List ℚ)
    (oi : IndexMat) (values : List ℚ)
    (hL : level_heights.length = oi.rows) (hT : emission_times.length = oi.cols)
    (hidx : ∀ a t, a < oi.rows → t < oi.cols → 0 ≤ oi.data a t →
      (oi.data a t).toNat < values.length) :
    (expandVariable emission_times level_heights oi values).rows = oi.rows ∧
    (expandVariable emission_times level_heights oi values).cols = oi.cols ∧
    ∀ a t, a < oi.rows → t < oi.cols →
      (0 ≤ oi.data a t →
        (expandVariable emission_times level_heights oi values).data a t =
          values[(oi.data a t).toNat]?) ∧
      (oi.data a t < 0 →
        (expandVariable emission_times level_heights oi values).data a t = none) := by
  refine ⟨rfl, rfl, fun a t ha ht => ⟨fun hnn => ?_, fun hneg => ?_⟩⟩
  · have hlt := hidx a t ha ht hnn
    simp only [expandVariable]
    rw [if_pos ⟨by omega, by omega, hnn⟩]
    rw [List.getElem?_eq_getElem hlt]
    congr 1
    rw [List.getD_eq_getElem?_getD, List.getElem?_eq_getElem hlt]
    rfl
  · simp only [expandVariable]
    rw [if_neg]
    rintro ⟨-, -, hge⟩
    omega

/-- Claim C1 witness for the amended statement: a 1x1 table with index 0
into `values = [5]` and matching singleton label arrays. -/
theorem C1_expand_correct_witness :
    (expandVariable [(8 : ℚ)] [(7 : ℚ)] (IndexMat.mk 1 1 (fun _ _ => 0)) [(5 : ℚ)]).rows = 1 ∧
    (expandVariable [(8 : ℚ)] [(7 : ℚ)] (IndexMat.mk 1 1 (fun _ _ => 0)) [(5 : ℚ)]).cols = 1 ∧
    ∀ a t, a < 1 → t < 1 →
      ((0 : Int) ≤ 0 →
        (expandVariable [(8 : ℚ)] [(7 : ℚ)] (IndexMat.mk 1 1 (fun _ _ => 0)) [(5 : ℚ)]).data a t =
          [(5 : ℚ)][((0 : Int)).toNat]?) ∧
      ((0 : Int) < 0 →
        (expandVariable [(8 : ℚ)] [(7 : ℚ)] (IndexMat.mk 1 1 (fun _ _ => 0)) [(5 : ℚ)]).data a t = none) :=
  C1_expand_correct [(8 : ℚ)] [(7 : ℚ)] (IndexMat.mk 1 1 (fun _ _ => 0)) [(5 : ℚ)]
    (by simp) (by simp) (by intro a t _ _ _; simp)

/-- Claim C10: the filled region of the reconstruction is governed by the
label array lengths, not the table shape — any output cell outside
`[0, len(levelHeights)) x [0, len(emissionTimes))` stays masked regardless
of its ordering-index entry, and the reconstruction postcondition holds on
that sub-rectangle.  (Label arrays longer than the table make the source
raise `IndexError`, so the crash-free regime is assumed.) -/
theorem C10_expand_region (emission_times level_heights : List ℚ)
    (oi : IndexMat) (values : List ℚ)
    (hL : level_heights.length ≤ oi.rows) (hT : emission_times.length ≤ oi.cols)
    (hidx : ∀ a t, a < oi.rows → t < oi.cols → 0 ≤ oi.data a t →
      (oi.data a t).toNat < values.length) :
    (∀ a t, a < oi.rows → t < oi.cols →
      (level_heights.length ≤ a ∨ emission_times.length ≤ t) →
      (expandVariable emission_times level_heights oi values).data a t = none) ∧
    (∀ a t, a < level_heights.length → t < emission_times.length →
      0 ≤ oi.data a t →
      (expandVariable emission_times level_heights oi values).data a t =
        values[(oi.data a t).toNat]?) := by
  constructor
  · intro a t _ _ hout
    simp only [expandVariable]
    rw [if_neg]
    rintro ⟨h1, h2, -⟩
    omega
  · intro a t ha ht hnn
    have hlt := hidx a t (by omega) (by omega) hnn
    simp only [expandVariable]
    rw [if_pos ⟨ha, ht, hnn⟩]
    rw [List.getElem?_eq_getElem hlt]
    congr 1
    rw [List.getD_eq_getElem?_getD, List.getElem?_eq_getElem hlt]
    rfl

/-- Claim C10 witness: a 2x2 table of zeros with singleton label arrays —
cell (1, 0) stays masked although its index entry 0 is valid, while cell
(0, 0) receives `values[0]`. -/
theorem C10_expand_region_witness :
    (expandVariable [(8 : ℚ)] [(7 : ℚ)] (IndexMat.mk 2 2 (fun _ _ => 0)) [(5 : ℚ)]).data 1 0 = none ∧
    (expandVariable [(8 : ℚ)] [(7 : ℚ)] (IndexMat.mk 2 2 (fun _ _ => 0)) [(5 : ℚ)]).data 0 0 =
      [(5 : ℚ)][(0 : Nat)]? :=
  ⟨(C10_expand_region [(8 : ℚ)] [(7 : ℚ)] (IndexMat.mk 2 2 (fun _ _ => 0)) [(5 : ℚ)]
      (by simp) (by simp) (by intro a t _ _ _; simp)).1 1 0 (by norm_num) (by norm_num)
      (Or.inl (by simp)),
   (C10_expand_region [(8 : ℚ)] [(7 : ℚ)] (IndexMat.mk 2 2 (fun _ _ => 0)) [(5 : ℚ)]
      (by simp) (by simp) (by intro a t _ _ _; simp)).2 0 0 (by norm_num) (by norm_num)
      (by norm_num)⟩

/-- Claim C4: with at least one passing row and column, the valid elevation
range is `[0, lastTrueRow + 1)` — trimming only from the top — and the valid
time range defaults to `[minValidColumn, maxValidColumn + 1)`, with
caller-supplied explicit bounds taking precedence over the computed ones. -/
theorem C4_prune_ranges (A B : MaskedMat) (z : ℚ) (vtmin vtmax : Option Nat)
    (heights times : List ℚ)
    (hrow : ∃ r, r < A.rows ∧ passesRow A B z r = true)
    (hcol : ∃ c, c < A.cols ∧ passesCol A B z c = true) :
    ∃ res, prune A B z vtmin vtmax heights times = Except.ok res ∧
      (∃ lastRow, res.validElevations = lastRow + 1 ∧ lastRow < A.rows ∧
        passesRow A B z lastRow = true ∧
        ∀ r, r < A.rows → passesRow A B z r = true → r ≤ lastRow) ∧
      ((∀ v, vtmin = some v → res.validTimesMin = v) ∧
        (vtmin = none → res.validTimesMin < A.cols ∧
          passesCol A B z res.validTimesMin = true ∧
          ∀ c, c < A.cols → passesCol A B z c = true → res.validTimesMin ≤ c)) ∧
      ((∀ v, vtmax = some v → res.validTimesMax = v) ∧
        (vtmax = none → ∃ lastCol, res.validTimesMax = lastCol + 1 ∧ lastCol < A.cols ∧
          passesCol A B z lastCol = true ∧
          ∀ c, c < A.cols → passesCol A B z c = true → c ≤ lastCol)) := by
  obtain ⟨lastRow, tmin, tmax, heq, hlr, hmin, hmax⟩ :=
    prune_ok_spec A B z vtmin vtmax heights times hrow hcol
  exact ⟨_, heq, ⟨lastRow, rfl, hlr⟩, hmin, hmax⟩

/-- Claim C4 witness: a 1x1 field pair passing at threshold 0, with an
explicit lower time bound. -/
theorem C4_prune_ranges_witness :
    ∃ res, prune ⟨1, 1, fun _ _ => some (1 : ℚ)⟩ ⟨1, 1, fun _ _ => some (1 : ℚ)⟩ 0
      (some 0) none [] [] = Except.ok res := by
  obtain ⟨res, heq, -⟩ :=
    C4_prune_ranges ⟨1, 1, fun _ _ => some (1 : ℚ)⟩ ⟨1, 1, fun _ _ => some (1 : ℚ)⟩ 0
      (some 0) none [] []
      ⟨0, by norm_num, by simp [passesRow, rowMax, optMax, List.range_succ]⟩
      ⟨0, by norm_num, by simp [passesCol, colMax, optMax, List.range_succ]⟩
  exact ⟨res, heq⟩

/-- Claim C5: after pruning with default bounds, the two cropped fields have
identical shapes, the axis label arrays are cropped to exactly the same rows
and columns as the data, and every dropped row (resp. column) has unmasked
maxima summing to at most the threshold. -/
theorem C5_prune_lockstep (A B : MaskedMat) (z : ℚ) (heights times : List ℚ)
    (hBr : B.rows = A.rows) (hBc : B.cols = A.cols)
    (hhl : heights.length = A.rows) (htl : times.length = A.cols)
    (hrow : ∃ r, r < A.rows ∧ passesRow A B z r = true)
    (hcol : ∃ c, c < A.cols ∧ passesCol A B z c = true) :
    ∃ res, prune A B z none none heights times = Except.ok res ∧
      res.aPriori.rows = res.aPosteriori.rows ∧
      res.aPriori.cols = res.aPosteriori.cols ∧
      res.levelHeights.length = res.aPriori.rows ∧
      res.emissionTimes.length = res.aPriori.cols ∧
      (∀ i, i < res.levelHeights.length → res.levelHeights[i]? = heights[i]?) ∧
      (∀ j, j < res.emissionTimes.length →
        res.emissionTimes[j]? = times[res.validTimesMin + j]?) ∧
      (∀ r c, res.aPriori.data r c = A.data r (res.validTimesMin + c) ∧
        res.aPosteriori.data r c = B.data r (res.validTimesMin + c)) ∧
      (∀ r, res.validElevations ≤ r → r < A.rows →
        ∀ x y, rowMax A r = some x → rowMax B r = some y → x + y ≤ z) ∧
      (∀ c, c < A.cols → (c < res.validTimesMin ∨ res.validTimesMax ≤ c) →
        ∀ x y, colMax A c = some x → colMax B c = some y → x + y ≤ z) := by
  obtain ⟨lastRow, tmin, tmax, heq, ⟨hlrlt, hlrp, hub⟩, ⟨-, hminN⟩, ⟨-, hmaxN⟩⟩ :=
    prune_ok_spec A B z none none heights times hrow hcol
  obtain ⟨htmin1, htmin2, htmin3⟩ := hminN rfl
  obtain ⟨lastCol, htceq, hlclt, hlcp, hcub⟩ := hmaxN rfl
  refine ⟨_, heq, ?_, ?_, ?_, ?_, ?_, ?_, ?_, ?_, ?_⟩
  · show min (lastRow + 1) A.rows = min (lastRow + 1) B.rows
    rw [hBr]
  · show min tmax A.cols - tmin = min tmax B.cols - tmin
    rw [hBc]
  · show (heights.take (lastRow + 1)).length = min (lastRow + 1) A.rows
    rw [List.length_take, hhl]
  · show ((times.take tmax).drop tmin).length = min tmax A.cols - tmin
    rw [List.length_drop, List.length_take, htl]
  · intro i hi
    have hi' : i < lastRow + 1 := by
      have h2 : i < (heights.take (lastRow + 1)).length := hi
      rw [List.length_take] at h2
      omega
    show (heights.take (lastRow + 1))[i]? = heights[i]?
    rw [List.getElem?_take]
    exact if_pos hi'
  · intro j hj
    have hj' : tmin + j < tmax := by
      have h2 : j < ((times.take tmax).drop tmin).length := hj
      rw [List.length_drop, List.length_take] at h2
      omega
    show ((times.take tmax).drop tmin)[j]? = times[tmin + j]?
    rw [List.getElem?_drop, List.getElem?_take]
    exact if_pos hj'
  · intro r c
    exact ⟨rfl, rfl⟩
  · intro r hge hlt x y hx hy
    have hge' : lastRow + 1 ≤ r := hge
    by_contra hgt
    push_neg at hgt
    have hp : passesRow A B z r = true := by
      simp only [passesRow, hx, hy, decide_eq_true_eq]
      exact hgt
    have := hub r hlt hp
    omega
  · intro c hclt hdrop x y hx hy
    by_contra hgt
    push_neg at hgt
    have hp : passesCol A B z c = true := by
      simp only [passesCol, hx, hy, decide_eq_true_eq]
      exact hgt
    rcases hdrop with hlo | hhi
    · have h1 : c < tmin := hlo
      have := htmin3 c hclt hp
      omega
    · have h1 : tmax ≤ c := hhi
      have := hcub c hclt hp
      omega

/-- Claim C5 witness: concrete 1x1 fields with singleton label arrays. -/
theorem C5_prune_lockstep_witness :
    ∃ res, prune ⟨1, 1, fun _ _ => some (1 : ℚ)⟩ ⟨1, 1, fun _ _ => some (1 : ℚ)⟩ 0
      none none [(7 : ℚ)] [(8 : ℚ)] = Except.ok res := by
  obtain ⟨res, heq, -⟩ :=
    C5_prune_lockstep ⟨1, 1, fun _ _ => some (1 : ℚ)⟩ ⟨1, 1, fun _ _ => some (1 : ℚ)⟩ 0
      [(7 : ℚ)] [(8 : ℚ)] rfl rfl (by simp) (by simp)
      ⟨0, by norm_num, by simp [passesRow, rowMax, optMax, List.range_succ]⟩
      ⟨0, by norm_num, by simp [passesCol, colMax, optMax, List.range_succ]⟩
  exact ⟨res, heq⟩

/-- Claim C7 counterexample: all-zero 1x1 fields at threshold 0 — no row
passes, and `prune` raises CPython's empty-sequence `ValueError` from
`max()`, not an explicit "no valid data" error. -/
theorem C7_counterexample :
    prune ⟨1, 1, fun _ _ => some (0 : ℚ)⟩ ⟨1, 1, fun _ _ => some (0 : ℚ)⟩ 0 none none [] [] =
      Except.error "max() arg is an empty sequence" ∧
    "max() arg is an empty sequence" ≠ noValidDataMsg := by
  constructor
  · simp [prune, passesRow, rowMax, optMax, pyMax, List.range_succ]
  · decide

/-- Claim C7 (amended): with default time bounds, when no row (or no
column) passes the threshold criterion, `prune` fails with an error — the
incidental empty-sequence `ValueError` raised by the builtin `max`/`min`
over the empty list of passing indices — rather than returning an empty or
negative-sized range; it does not raise an explicit "no valid data"
error. -/
theorem C7_prune_error (A B : MaskedMat) (z : ℚ) (heights times : List ℚ)
    (h : (∀ r, r < A.rows → passesRow A B z r = false) ∨
         (∀ c, c < A.cols → passesCol A B z c = false)) :
    ∃ msg, prune A B z none none heights times = Except.error msg := by
  rcases h with h | h
  · have hnil : (List.range A.rows).filter (passesRow A B z) = [] := by
      refine List.filter_eq_nil_iff.mpr ?_
      intro a ha
      simp [h a (List.mem_range.mp ha)]
    refine ⟨"max() arg is an empty sequence", ?_⟩
    simp only [prune, hnil]
    rfl
  · have hcnil : (List.range A.cols).filter (passesCol A B z) = [] := by
      refine List.filter_eq_nil_iff.mpr ?_
      intro a ha
      simp [h a (List.mem_range.mp ha)]
    rcases hrf : (List.range A.rows).filter (passesRow A B z) with _ | ⟨x, xs⟩
    · refine ⟨"max() arg is an empty sequence", ?_⟩
      simp only [prune, hrf]
      rfl
    · refine ⟨"min() arg is an empty sequence", ?_⟩
      simp only [prune, hrf, hcnil]
      rfl

/-- Claim C7 witness for the amended statement: the all-zero 1x1 pair. -/
theorem C7_prune_error_witness :
    ∃ msg, prune ⟨1, 1, fun _ _ => some (0 : ℚ)⟩ ⟨1, 1, fun _ _ => some (0 : ℚ)⟩ 0
      none none [] [] = Except.error msg :=
  C7_prune_error ⟨1, 1, fun _ _ => some (0 : ℚ)⟩ ⟨1, 1, fun _ _ => some (0 : ℚ)⟩ 0 [] []
    (Or.inl (fun r hr => by
      interval_cases r
      simp [passesRow, rowMax, optMax, List.range_succ]))
